import Mathlib

/-!
Verification of the `pl` lexer engine (`src/pl/lex.py`) and its XML
vocabulary (`src/pl/langs/xml.py`).

The Python source is shallowly embedded: each class/method below is
translated into an executable Lean definition, and the spec's testable
properties are settled as theorems about those definitions.

Modelling conventions:
* Python's `re` matching rules are abstracted as `TokenType.pat : String →
  Option Nat`, the matched-prefix length (`match.end()`) or `none`.  Note
  that a Python regex that can match the empty string yields a zero-length
  match object, not `None`; correspondingly `pat` may return `some 0`.
* `Source.next` in Python raises `StopIteration` at the end-of-input
  position.  Every reachable call site is guarded (directly or by the
  regex-match length bound), so the model simply returns the row/column
  arithmetic value there.
* Indexing a Python list/str out of bounds raises `IndexError`; those
  branches are unreachable from the lexer and the model returns a junk
  end-of-input value there.
* Loops whose termination depends on reaching the end-of-input marker
  (`Source.range` iteration, `skip_whitespace`) are modelled with an
  explicit recursion bound `Source.size + 1` that is proved sufficient for
  every input, so the bounded function agrees with the Python loop
  everywhere.  The top-level `lex` loop genuinely may fail to terminate
  (see the zero-length-match theorems), so it takes a fuel parameter and
  returns `none` when the fuel runs out.
-/

/-- `Cursor` (`lex.py`): a row/column coordinate, ordered row-major. -/
structure Cursor where
  row : Nat
  col : Nat
deriving DecidableEq

/-- `Cursor.__lt__`: `self.row < other.row or (self.row == other.row and self.col < other.col)`. -/
def Cursor.lt (a b : Cursor) : Prop :=
  a.row < b.row ∨ (a.row = b.row ∧ a.col < b.col)

instance : LT Cursor := ⟨Cursor.lt⟩

/-- `@total_ordering` derives `<=` from `<` and `==`. -/
def Cursor.le (a b : Cursor) : Prop := a < b ∨ a = b

instance : LE Cursor := ⟨Cursor.le⟩

instance (a b : Cursor) : Decidable (a < b) :=
  inferInstanceAs (Decidable (a.row < b.row ∨ (a.row = b.row ∧ a.col < b.col)))

instance (a b : Cursor) : Decidable (a ≤ b) :=
  inferInstanceAs (Decidable ((a.row < b.row ∨ (a.row = b.row ∧ a.col < b.col)) ∨ a = b))

theorem Cursor.lt_def {a b : Cursor} :
    a < b ↔ (a.row < b.row ∨ (a.row = b.row ∧ a.col < b.col)) := Iff.rfl

theorem Cursor.le_def {a b : Cursor} : a ≤ b ↔ (a < b ∨ a = b) := Iff.rfl

theorem Cursor.ext_iff' {a b : Cursor} : a = b ↔ a.row = b.row ∧ a.col = b.col := by
  constructor
  · rintro rfl; exact ⟨rfl, rfl⟩
  · rintro ⟨h1, h2⟩; cases a; cases b; simp_all

theorem Cursor.le_refl (a : Cursor) : a ≤ a := Or.inr rfl

theorem Cursor.lt_trans {a b c : Cursor} (h1 : a < b) (h2 : b < c) : a < c := by
  rw [Cursor.lt_def] at *
  omega

theorem Cursor.lt_of_lt_of_le {a b c : Cursor} (h1 : a < b) (h2 : b ≤ c) : a < c := by
  rcases h2 with h2 | rfl
  · exact Cursor.lt_trans h1 h2
  · exact h1

theorem Cursor.le_of_lt {a b : Cursor} (h : a < b) : a ≤ b := Or.inl h

theorem Cursor.le_trans {a b c : Cursor} (h1 : a ≤ b) (h2 : b ≤ c) : a ≤ c := by
  rcases h1 with h1 | rfl
  · exact Cursor.le_of_lt (Cursor.lt_of_lt_of_le h1 h2)
  · exact h2

theorem Cursor.ne_of_lt {a b : Cursor} (h : a < b) : a ≠ b := by
  rintro rfl
  rw [Cursor.lt_def] at h
  omega

/-- `CursorRange` (`lex.py`): a half-open span of cursors.  The Python
`__post_init__` raises `ValueError` when `start > end`; every range the
lexer constructs satisfies `start <= end`, so the model keeps the plain
pair.  The second field is called `end` in the source, which is a reserved
word in Lean. -/
structure CursorRange where
  start : Cursor
  stop : Cursor
deriving DecidableEq

/-- A logical character: a real character (this includes the synthetic
line terminator `"\n"`) or the end-of-input marker, which the Python code
represents by the string `"eof"`. -/
inductive LChar where
  | chr (c : Char)
  | eof
deriving DecidableEq

/-- The string the Python code holds for this logical character:
single-character strings for real characters, `"eof"` for the marker. -/
def LChar.str : LChar → String
  | .chr c => String.mk [c]
  | .eof => "eof"

/-- `str.split("\n")` on the character list: used by `Source.__post_init__`. -/
def splitLines : List Char → List String
  | [] => [""]
  | c :: cs =>
    if c = '\n' then "" :: splitLines cs
    else
      match splitLines cs with
      | [] => [String.mk [c]]  -- unreachable: splitLines never returns []
      | l :: ls => String.mk (c :: l.data) :: ls

/-- `Source` (`lex.py`): owns the line-split buffer. -/
structure Source where
  lines : List String
deriving DecidableEq

/-- `Source.__post_init__`: `self.lines = src.split("\n")`. -/
def Source.ofString (s : String) : Source := ⟨splitLines s.data⟩

/-- `Source.rows`. -/
def Source.rows (src : Source) : Nat := src.lines.length

/-- `self.lines[row]`; rows outside the buffer would raise `IndexError`
in Python and are never reached by the lexer. -/
def Source.line (src : Source) (row : Nat) : String := src.lines.getD row ""

/-- `Source.cols`. -/
def Source.cols (src : Source) (row : Nat) : Nat := (src.line row).length

/-- `Source.valid`. -/
def Source.valid (src : Source) (pos : Cursor) : Prop :=
  pos.row < src.rows ∧ pos.col ≤ src.cols pos.row

/-- `Source.char_at`: the logical character at a position.  The two
out-of-bounds branches would raise `IndexError` in Python; they are never
reached from the lexer, and returning `eof` there keeps the function
total. -/
def Source.char_at (src : Source) (pos : Cursor) : LChar :=
  if pos.row < src.rows then
    if pos.col = src.cols pos.row then
      if pos.row = src.rows - 1 then .eof else .chr '\n'
    else if pos.col < src.cols pos.row then
      .chr ((src.line pos.row).data.getD pos.col ' ')
    else
      .eof  -- out of bounds (pos.col > line length)
  else .eof  -- out of bounds (pos.row ≥ number of rows)

/-- `Source.next` for `n = 1`.  At the end-of-input position the Python
code raises `StopIteration`; all reachable call sites are guarded, and the
model returns the arithmetic successor there. -/
def Source.next (src : Source) (pos : Cursor) : Cursor :=
  if pos.col = src.cols pos.row then ⟨pos.row + 1, 0⟩ else ⟨pos.row, pos.col + 1⟩

/-- `Source.next` with the keyword argument `n`: `for _ in range(n): pos = self.next(pos)`. -/
def Source.nextN (src : Source) (pos : Cursor) : Nat → Cursor
  | 0 => pos
  | n + 1 => src.nextN (src.next pos) n

/-- Total number of logical characters of a line buffer (each line plus
one position for its terminator / the end-of-input marker).  Used as the
recursion bound for the position-walking loops. -/
def linesSize : List String → Nat
  | [] => 0
  | l :: ls => l.length + 1 + linesSize ls

/-- Recursion bound for loops that walk positions of `src`. -/
def Source.size (src : Source) : Nat := linesSize src.lines

/-- Logical characters in the first `r` lines (with their terminators). -/
def prefixSize : List String → Nat → Nat
  | _, 0 => 0
  | [], _ + 1 => 0
  | l :: ls, r + 1 => l.length + 1 + prefixSize ls r

/-- Flat stream index of a position: characters on earlier rows plus the column. -/
def Source.flat (src : Source) (pos : Cursor) : Nat :=
  prefixSize src.lines pos.row + pos.col

/-- `Lexer.WHITESPACE = {" ", "\t", "\n"}`. -/
def Lexer.WHITESPACE : List Char := [' ', '\t', '\n']

/-- `self.src[pos] in Lexer.WHITESPACE`; the `"eof"` marker string is not
in the whitespace set. -/
def LChar.isWs : LChar → Bool
  | .chr c => Lexer.WHITESPACE.contains c
  | .eof => false

/-- `Lexer.Instance.skip_whitespace` body: walk positions from `pos`,
stopping at the first whose character is not whitespace (the `for pos in
self.src.range(self.pos)` loop always stops because the end-of-input
marker is not whitespace).  The bound `src.size` is proved sufficient for
every input (`skip_whitespace_not_ws`). -/
def skipWsAux (src : Source) : Nat → Cursor → Cursor
  | 0, pos => pos
  | k + 1, pos =>
    if (src.char_at pos).isWs then skipWsAux src k (src.next pos) else pos

/-- `Lexer.Instance.skip_whitespace`. -/
def Source.skip_whitespace (src : Source) (pos : Cursor) : Cursor :=
  skipWsAux src src.size pos

/-- `Source.range` body: `while pos != end: yield pos; if self[pos] == "eof": break; pos = self.next(pos)`.
The bound `src.size + 1` is proved sufficient for every input
(`Source.range_eq`). -/
def rangeListAux (src : Source) : Nat → Cursor → Option Cursor → List Cursor
  | 0, _, _ => []
  | k + 1, pos, stop =>
    if stop = some pos then []
    else
      pos :: (if src.char_at pos = .eof then [] else rangeListAux src k (src.next pos) stop)

/-- `Source.range`: the (finite) list of positions from `start` up to but
excluding `stop` (or up to and including the end-of-input position when
`stop` is `none` or unreachable). -/
def Source.range (src : Source) (start : Cursor) (stop : Option Cursor) : List Cursor :=
  rangeListAux src (src.size + 1) start stop

/-- `Source.len`: `sum(1 for _ in self.range(rng.start, rng.end))`. -/
def Source.len (src : Source) (rng : CursorRange) : Nat :=
  (src.range rng.start (some rng.stop)).length

/-- `Source.str_at`: `"".join(self[pos] for pos in self.range(start, end))`. -/
def Source.str_at (src : Source) (rng : CursorRange) : String :=
  ⟨((src.range rng.start (some rng.stop)).map fun p => (src.char_at p).str.data).flatten⟩

/-! ### Infrastructure: the recursion bounds are sufficient -/

theorem prefixSize_succ (ls : List String) (r : Nat) (h : r < ls.length) :
    prefixSize ls (r + 1) = prefixSize ls r + ((ls.getD r "").length + 1) := by
  induction ls generalizing r with
  | nil => simp at h
  | cons l ls ih =>
    cases r with
    | zero => simp [prefixSize]
    | succ r =>
      simp only [prefixSize, List.getD_cons_succ]
      rw [ih r (by simpa using h)]
      omega

theorem prefixSize_add_le (ls : List String) (r : Nat) (h : r < ls.length) :
    prefixSize ls r + ((ls.getD r "").length + 1) ≤ linesSize ls := by
  induction ls generalizing r with
  | nil => simp at h
  | cons l ls ih =>
    cases r with
    | zero => simp [prefixSize, linesSize]
    | succ r =>
      simp only [prefixSize, linesSize, List.getD_cons_succ]
      have := ih r (by simpa using h)
      omega

theorem Source.char_at_ne_eof {src : Source} {pos : Cursor}
    (h : src.char_at pos ≠ .eof) :
    pos.row < src.rows ∧
      ((pos.col = src.cols pos.row ∧ pos.row + 1 < src.rows) ∨ pos.col < src.cols pos.row) := by
  unfold Source.char_at at h
  split at h
  · rename_i hrow
    refine ⟨hrow, ?_⟩
    split at h
    · rename_i hcol
      split at h
      · exact absurd rfl h
      · rename_i hlast
        exact Or.inl ⟨hcol, by omega⟩
    · split at h
      · rename_i hlt
        exact Or.inr hlt
      · exact absurd rfl h
  · exact absurd rfl h

theorem Source.flat_next {src : Source} {pos : Cursor}
    (h : src.char_at pos ≠ .eof) :
    src.flat (src.next pos) = src.flat pos + 1 ∧ src.flat pos < src.size := by
  obtain ⟨hrow, hcase⟩ := Source.char_at_ne_eof h
  have hps := prefixSize_succ src.lines pos.row hrow
  have hple := prefixSize_add_le src.lines pos.row hrow
  rcases hcase with ⟨hcol, _⟩ | hlt
  · constructor
    · simp only [Source.flat, Source.next, if_pos hcol]
      simp only [Source.cols, Source.line] at hcol hps
      omega
    · simp only [Source.flat, Source.size]
      simp only [Source.cols, Source.line] at hcol
      omega
  · constructor
    · simp only [Source.flat, Source.next, if_neg (by omega : ¬pos.col = src.cols pos.row)]
      omega
    · simp only [Source.flat, Source.size]
      simp only [Source.cols, Source.line] at hlt
      omega

theorem LChar.ne_eof_of_isWs {c : LChar} (h : c.isWs = true) : c ≠ .eof := by
  cases c with
  | chr c => simp
  | eof => simp [LChar.isWs] at h

theorem Cursor.lt_next (src : Source) (pos : Cursor) : pos < src.next pos := by
  unfold Source.next
  split <;> rw [Cursor.lt_def] <;> simp

theorem skipWsAux_le (src : Source) (k : Nat) (pos : Cursor) :
    pos ≤ skipWsAux src k pos := by
  induction k generalizing pos with
  | zero => exact Cursor.le_refl pos
  | succ k ih =>
    unfold skipWsAux
    split
    · exact Cursor.le_trans (Cursor.le_of_lt (Cursor.lt_next src pos)) (ih (src.next pos))
    · exact Cursor.le_refl pos

theorem skipWsAux_not_ws (src : Source) (k : Nat) (pos : Cursor)
    (hk : src.size - src.flat pos ≤ k) :
    (src.char_at (skipWsAux src k pos)).isWs = false := by
  induction k generalizing pos with
  | zero =>
    unfold skipWsAux
    cases hws : (src.char_at pos).isWs with
    | false => rfl
    | true =>
      have := (Source.flat_next (LChar.ne_eof_of_isWs hws)).2
      omega
  | succ k ih =>
    unfold skipWsAux
    split
    · rename_i hws
      have hnext := Source.flat_next (LChar.ne_eof_of_isWs hws)
      exact ih (src.next pos) (by omega)
    · rename_i hws
      simpa using hws

/-- After `skip_whitespace` the character under the cursor is not whitespace. -/
theorem Source.skip_whitespace_not_ws (src : Source) (pos : Cursor) :
    (src.char_at (src.skip_whitespace pos)).isWs = false :=
  skipWsAux_not_ws src src.size pos (Nat.sub_le _ _)

/-- `skip_whitespace` never moves the cursor backwards. -/
theorem Source.skip_whitespace_le (src : Source) (pos : Cursor) :
    pos ≤ src.skip_whitespace pos :=
  skipWsAux_le src src.size pos

theorem rangeListAux_congr (src : Source) (stop : Option Cursor) :
    ∀ (k k' : Nat) (pos : Cursor), src.size - src.flat pos < k →
      src.size - src.flat pos < k' →
      rangeListAux src k pos stop = rangeListAux src k' pos stop := by
  intro k
  induction k with
  | zero => intro k' pos h _; omega
  | succ k ih =>
    intro k' pos h h'
    cases k' with
    | zero => omega
    | succ k' =>
      unfold rangeListAux
      by_cases hstop : stop = some pos
      · simp [hstop]
      · simp only [if_neg hstop]
        by_cases heof : src.char_at pos = .eof
        · simp [heof]
        · have hnext := Source.flat_next heof
          simp only [if_neg heof]
          rw [ih k' (src.next pos) (by omega) (by omega)]

/-- The loop equation of `Source.range`: the explicit recursion bound of
the model is sufficient on every input. -/
theorem Source.range_eq (src : Source) (pos : Cursor) (stop : Option Cursor) :
    src.range pos stop =
      if stop = some pos then []
      else pos :: (if src.char_at pos = .eof then [] else src.range (src.next pos) stop) := by
  unfold Source.range
  conv_lhs => rw [rangeListAux]
  by_cases hstop : stop = some pos
  · simp [hstop]
  · simp only [if_neg hstop]
    by_cases heof : src.char_at pos = .eof
    · simp [heof]
    · have hnext := Source.flat_next heof
      simp only [if_neg heof]
      rw [rangeListAux_congr src stop (src.size) (src.size + 1) (src.next pos) (by omega) (by omega)]

/-- Every position the whitespace skipper passes over holds a whitespace
character and lies strictly before the final cursor. -/
theorem skipWsAux_trace (src : Source) (k : Nat) (pos : Cursor)
    (hk : src.size - src.flat pos ≤ k) :
    ∀ q ∈ src.range pos (some (skipWsAux src k pos)),
      (src.char_at q).isWs = true ∧ q < skipWsAux src k pos := by
  induction k generalizing pos with
  | zero =>
    unfold skipWsAux
    rw [Source.range_eq]
    simp
  | succ k ih =>
    unfold skipWsAux
    cases hws : (src.char_at pos).isWs with
    | false =>
      rw [Source.range_eq]
      simp
    | true =>
      simp only [if_pos hws]
      have hnext := Source.flat_next (LChar.ne_eof_of_isWs hws)
      have hlt : pos < skipWsAux src k (src.next pos) :=
        Cursor.lt_of_lt_of_le (Cursor.lt_next src pos) (skipWsAux_le src k (src.next pos))
      intro q hq
      rw [Source.range_eq] at hq
      rw [if_neg (by simpa using (Cursor.ne_of_lt hlt).symm)] at hq
      rw [if_neg (LChar.ne_eof_of_isWs hws)] at hq
      rcases List.mem_cons.mp hq with rfl | hq
      · exact ⟨hws, hlt⟩
      · exact ih (src.next pos) (by omega) q hq

theorem Source.skip_whitespace_trace (src : Source) (pos : Cursor) :
    ∀ q ∈ src.range pos (some (src.skip_whitespace pos)),
      (src.char_at q).isWs = true ∧ q < src.skip_whitespace pos :=
  skipWsAux_trace src src.size pos (Nat.sub_le _ _)

theorem Source.char_at_within_line {src : Source} {row col : Nat}
    (hrow : row < src.rows) (hcol : col < src.cols row) :
    src.char_at ⟨row, col⟩ = .chr ((src.line row).data.getD col ' ') := by
  unfold Source.char_at
  simp only [if_pos hrow]
  rw [if_neg (by omega), if_pos hcol]

theorem Source.next_within_line {src : Source} {row col : Nat}
    (hcol : col < src.cols row) :
    src.next ⟨row, col⟩ = ⟨row, col + 1⟩ := by
  unfold Source.next
  rw [if_neg (by simp; omega)]

theorem Source.nextN_within_line {src : Source} {row col : Nat} (n : Nat)
    (hn : col + n ≤ src.cols row) :
    src.nextN ⟨row, col⟩ n = ⟨row, col + n⟩ := by
  induction n generalizing col with
  | zero => rfl
  | succ n ih =>
    unfold Source.nextN
    rw [Source.next_within_line (by omega)]
    rw [ih (by omega)]
    congr 1
    omega

theorem Source.range_within_line {src : Source} {row col : Nat} (n : Nat)
    (hrow : row < src.rows) (hn : col + n ≤ src.cols row) :
    src.range ⟨row, col⟩ (some ⟨row, col + n⟩) =
      (List.range n).map fun i => (⟨row, col + i⟩ : Cursor) := by
  induction n generalizing col with
  | zero => rw [Source.range_eq]; simp
  | succ n ih =>
    rw [Source.range_eq]
    rw [if_neg (by simp [Cursor.ext_iff'])]
    rw [if_neg (by rw [Source.char_at_within_line hrow (by omega)]; simp)]
    rw [Source.next_within_line (by omega)]
    have hstop : col + (n + 1) = (col + 1) + n := by omega
    rw [hstop, ih (by omega), List.range_succ_eq_map]
    simp only [List.map_cons, List.map_map, Function.comp_def, Nat.add_zero]
    refine List.cons_eq_cons.mpr ⟨rfl, List.map_congr_left ?_⟩
    intro i _
    congr 1
    omega

/-- The number of positions in a within-line range is its width, and the
materialized substring is the corresponding slice of the line (in
particular its length is the width). -/
theorem Source.len_within_line {src : Source} {row col : Nat} (n : Nat)
    (hrow : row < src.rows) (hn : col + n ≤ src.cols row) :
    src.len ⟨⟨row, col⟩, ⟨row, col + n⟩⟩ = n := by
  unfold Source.len
  rw [Source.range_within_line n hrow hn]
  simp

theorem Source.str_at_length_within_line {src : Source} {row col : Nat} (n : Nat)
    (hrow : row < src.rows) (hn : col + n ≤ src.cols row) :
    (src.str_at ⟨⟨row, col⟩, ⟨row, col + n⟩⟩).length = n := by
  unfold Source.str_at
  show (((src.range ⟨row, col⟩ (some ⟨row, col + n⟩)).map fun p => (src.char_at p).str.data).flatten).length = n
  rw [Source.range_within_line n hrow hn]
  rw [List.map_map, List.length_flatten]
  rw [List.map_map]
  have : ∀ i ∈ List.range n,
      (List.length ∘ (fun p => (src.char_at p).str.data) ∘ fun i => (⟨row, col + i⟩ : Cursor)) i = 1 := by
    intro i hi
    simp only [Function.comp]
    rw [Source.char_at_within_line hrow (by simp at hi; omega)]
    simp [LChar.str]
  rw [List.map_congr_left this]
  simp [List.sum_replicate, List.map_const']

/-! ### Tokens and token kinds -/

/-- A token kind: a class name together with its matching rule.  The rule
abstracts `token_type.regex().match(remainder)` followed by
`match.end()`: it returns the matched prefix length of the given line
remainder, or `none` when the regex does not match at all.  A regex that
can match the empty string returns a zero-length match object in Python,
modelled by `some 0`. -/
structure TokenType where
  name : String
  pat : String → Option Nat

/-- A well-behaved matching rule never reports a match longer than the
string it matched against; every Python regex satisfies this. -/
def TokenType.WF (tt : TokenType) : Prop :=
  ∀ s n, tt.pat s = some n → n ≤ s.length

/-- `Token` (`lex.py`): the token class name, the matched range, the
materialized lexeme, and the optional alternative interpretation. -/
inductive Token where
  | mk (type : String) (rng : CursorRange) (lexeme : String) (alternative : Option Token)

/-- `Token.token_type()` (the class name). -/
def Token.type : Token → String
  | .mk t _ _ _ => t

/-- `Token.rng`. -/
def Token.rng : Token → CursorRange
  | .mk _ r _ _ => r

/-- `Token.lexeme`. -/
def Token.lexeme : Token → String
  | .mk _ _ l _ => l

/-- `Token.alternative`. -/
def Token.alternative : Token → Option Token
  | .mk _ _ _ a => a

/-- `Token.len`: `len(self.lexeme)`. -/
def Token.len (t : Token) : Nat := t.lexeme.length

/-- `match.alternative = result`: the only mutation `parse_token` performs. -/
def Token.setAlternative : Token → Option Token → Token
  | .mk t r l _, a => .mk t r l a

/-- Token construction `token_type(src, rng)`: `__post_init__` materializes
`self.lexeme = self.src[self.rng]`, and `alternative` defaults to `None`. -/
def Token.make (src : Source) (type : String) (rng : CursorRange) : Token :=
  .mk type rng (src.str_at rng) none

theorem Token.type_setAlternative (t : Token) (a : Option Token) :
    (t.setAlternative a).type = t.type := by cases t; rfl

theorem Token.rng_setAlternative (t : Token) (a : Option Token) :
    (t.setAlternative a).rng = t.rng := by cases t; rfl

theorem Token.lexeme_setAlternative (t : Token) (a : Option Token) :
    (t.setAlternative a).lexeme = t.lexeme := by cases t; rfl

theorem Token.len_setAlternative (t : Token) (a : Option Token) :
    (t.setAlternative a).len = t.len := by
  unfold Token.len
  rw [Token.lexeme_setAlternative]

theorem Token.alternative_setAlternative (t : Token) (a : Option Token) :
    (t.setAlternative a).alternative = a := by cases t; rfl

/-- The chain of interpretations reachable from a token by walking
`alternative`: the token itself first. -/
def Token.chainList : Token → List Token
  | .mk ty r lx none => [.mk ty r lx none]
  | .mk ty r lx (some u) => .mk ty r lx (some u) :: u.chainList

theorem Token.chainList_eq (t : Token) :
    t.chainList = t :: (match t.alternative with
      | none => []
      | some u => u.chainList) := by
  cases t with
  | mk ty r lx a => cases a <;> rfl

/-! ### `parse_token` -/

/-- `self.src.lines[self.pos.row][self.pos.col:]`: the line remainder the
matching rules are tried against (Python slicing clamps, so this is total). -/
def Source.remainder (src : Source) (pos : Cursor) : String :=
  ⟨(src.line pos.row).data.drop pos.col⟩

/-- The `for token_type in token_types` collection loop of `parse_token`:
every kind whose rule matches (including zero-length matches, which Python
`re` reports as a match object, not `None`) contributes a candidate token
over `[pos, next(pos, n=match.end()))`. -/
def parseMatches (src : Source) (pos : Cursor) (token_types : List TokenType) : List Token :=
  token_types.filterMap fun tt =>
    match tt.pat (src.remainder pos) with
    | none => none
    | some n => some (Token.make src tt.name ⟨pos, src.nextN pos n⟩)

/-- The sort key of `sorted(matches, key=lambda token: token.len)`. -/
def lenLe (a b : Token) : Prop := a.len ≤ b.len

instance : DecidableRel lenLe := fun a b => Nat.decLe a.len b.len

instance : IsTotal Token lenLe := ⟨fun a b => Nat.le_total a.len b.len⟩

instance : IsTrans Token lenLe := ⟨fun _ _ _ => Nat.le_trans⟩

instance : Inhabited Token := ⟨.mk "" ⟨⟨0, 0⟩, ⟨0, 0⟩⟩ "" none⟩

/-- `sorted(matches, key=lambda token: token.len)`: Python's sort is
stable; insertion sort by a `≤` key is stable in the same sense. -/
def sortByLen (l : List Token) : List Token := List.insertionSort lenLe l

/-- `matches = [token for token in matches if token.len == matches[-1].len]`
applied after sorting: keep the candidates of maximal length. -/
def keepMaxLen (l : List Token) : List Token :=
  let s := sortByLen l
  s.filter fun t => t.len == (s.getLastD default).len

/-- The chaining loop: `result = matches[0]; for match in matches[1:]:
match.alternative = result; result = match`. -/
def chainAlternatives : Token → List Token → Token
  | result, [] => result
  | result, m :: ms => chainAlternatives (m.setAlternative (some result)) ms

/-- `Lexer.Instance.parse_token`.  On success it returns the resulting
token together with the new cursor (`self.pos = result.rng.end` followed
by `self.skip_whitespace()`); on failure it returns the cursor the
`Lexer.Error` is raised at. -/
def parse_token (src : Source) (pos : Cursor) (token_types : List TokenType) :
    Except Cursor (Token × Cursor) :=
  let matched := parseMatches src pos token_types
  if matched.isEmpty then
    .error pos
  else
    match keepMaxLen matched with
    | [] => .error pos  -- unreachable: keepMaxLen of a nonempty list is nonempty (keepMaxLen_ne_nil)
    | m :: ms =>
      let result := chainAlternatives m ms
      .ok (result, src.skip_whitespace result.rng.stop)

/-- `GenericLexer.Instance.lex` loop body: `while self.src[self.pos] != "eof":
result.append(self.parse_token(...))`.  The loop need not terminate (a
kind whose rule matches the empty string makes it spin), so the model
takes fuel and returns `none` when it runs out. -/
def lexLoop (src : Source) (token_types : List TokenType) :
    Cursor → Nat → Option (Except Cursor (List Token))
  | _, 0 => none
  | pos, fuel + 1 =>
    if src.char_at pos = .eof then some (.ok [])
    else
      match parse_token src pos token_types with
      | .error p => some (.error p)
      | .ok (t, pos') =>
        (lexLoop src token_types pos' fuel).map fun r => r.map fun ts => t :: ts

/-- `GenericLexer(token_types).lex(src)`: skip leading whitespace from
`Cursor(0, 0)`, then run the token loop. -/
def lex (src : Source) (token_types : List TokenType) (fuel : Nat) :
    Option (Except Cursor (List Token)) :=
  lexLoop src token_types (src.skip_whitespace ⟨0, 0⟩) fuel

/-! ### The diagnostic renderer (`Lexer.Error.__init__`) -/

/-- `list(range(max(0, pos.row - 3), min(src.rows, pos.row + 3)))`;
natural-number subtraction clamps at zero exactly like `max(0, ...)`. -/
def rowsToShow (src : Source) (pos : Cursor) : List Nat :=
  List.range' (pos.row - 3) (min src.rows (pos.row + 3) - (pos.row - 3))

/-- `max(len(str(row + 1)) for row in rows_to_show)`.  Python's `max`
raises on an empty sequence; `rows_to_show` is nonempty for every valid
failure position, and the model folds from `0`. -/
def lineNumWidth (src : Source) (pos : Cursor) : Nat :=
  ((rowsToShow src pos).map fun row => (toString (row + 1)).length).foldr max 0

/-- `f"{n:>{w}}"`: left-pad with spaces to width `w`. -/
def padLeftStr (s : String) (w : Nat) : String :=
  ⟨List.replicate (w - s.length) ' '⟩ ++ s

/-- A run of spaces. -/
def spacesStr (n : Nat) : String := ⟨List.replicate n ' '⟩

/-- The context rows built by `Lexer.Error.__init__`: each shown row
rendered as `f"  {row + 1:>{w}} {src.lines[row]}"`, with the caret line
`f"  {' ' * w} {' ' * pos.col}^"` inserted immediately after the failing
row (`rows.insert(rows_to_show.index(pos.row) + 1, ...)`). -/
def errorRows (src : Source) (pos : Cursor) : List String :=
  let shown := rowsToShow src pos
  let w := lineNumWidth src pos
  let rows := shown.map fun row => "  " ++ padLeftStr (toString (row + 1)) w ++ " " ++ src.line row
  rows.insertIdx (shown.indexOf pos.row + 1)
    ("  " ++ spacesStr w ++ " " ++ spacesStr pos.col ++ "^")

/-- The full message: `"\n".join([msg] + rows)`. -/
def errorMessage (src : Source) (pos : Cursor) (msg : String) : String :=
  String.intercalate "\n" (msg :: errorRows src pos)

/-! ### Characterizing the sort-then-filter step -/

/-- The maximal candidate length (0 on the empty list). -/
def maxLen (l : List Token) : Nat := l.foldr (fun t m => max t.len m) 0

theorem maxLen_ge {l : List Token} {t : Token} (h : t ∈ l) : t.len ≤ maxLen l := by
  induction l with
  | nil => simp at h
  | cons x xs ih =>
    rcases List.mem_cons.mp h with rfl | h
    · simp [maxLen]
    · simp only [maxLen, List.foldr_cons]
      have := ih h
      simp only [maxLen] at this
      omega

theorem maxLen_mem {l : List Token} (h : l ≠ []) : ∃ t ∈ l, maxLen l = t.len := by
  induction l with
  | nil => exact absurd rfl h
  | cons x xs ih =>
    by_cases hxs : xs = []
    · subst hxs
      exact ⟨x, List.mem_singleton.mpr rfl, by simp [maxLen]⟩
    · obtain ⟨t, ht, hlen⟩ := ih hxs
      by_cases hcmp : x.len ≤ t.len
      · refine ⟨t, List.mem_cons_of_mem x ht, ?_⟩
        simp only [maxLen, List.foldr_cons]
        simp only [maxLen] at hlen
        omega
      · refine ⟨x, List.mem_cons_self x xs, ?_⟩
        have := maxLen_ge ht
        simp only [maxLen, List.foldr_cons] at *
        omega

theorem getLastD_mem {α : Type} {l : List α} (d : α) (h : l ≠ []) : l.getLastD d ∈ l := by
  induction l generalizing d with
  | nil => exact absurd rfl h
  | cons x xs ih =>
    rw [List.getLastD_cons]
    by_cases hxs : xs = []
    · subst hxs; simp
    · exact List.mem_cons_of_mem x (ih x hxs)

theorem getLastD_default_irrel {α : Type} {l : List α} (d d' : α) (h : l ≠ []) :
    l.getLastD d = l.getLastD d' := by
  cases l with
  | nil => exact absurd rfl h
  | cons x xs => rw [List.getLastD_cons, List.getLastD_cons]

theorem sorted_getLastD_max {s : List Token} (hs : List.Sorted lenLe s) (d : Token) :
    ∀ a ∈ s, a.len ≤ (s.getLastD d).len := by
  induction s generalizing d with
  | nil => simp
  | cons x xs ih =>
    rw [List.sorted_cons] at hs
    intro a ha
    rw [List.getLastD_cons]
    rcases List.mem_cons.mp ha with rfl | ha
    · by_cases hxs : xs = []
      · subst hxs; simp
      · exact hs.1 _ (getLastD_mem _ hxs)
    · exact ih hs.2 _ a ha

theorem sortByLen_perm (l : List Token) : (sortByLen l).Perm l :=
  List.perm_insertionSort lenLe l

theorem sortByLen_ne_nil {l : List Token} (h : l ≠ []) : sortByLen l ≠ [] := by
  intro hnil
  apply h
  have hp := sortByLen_perm l
  rw [hnil] at hp
  exact hp.symm.eq_nil

theorem getLastD_sortByLen_len {l : List Token} (h : l ≠ []) :
    ((sortByLen l).getLastD default).len = maxLen l := by
  have hs : (sortByLen l) ≠ [] := sortByLen_ne_nil h
  have hmem : (sortByLen l).getLastD default ∈ l :=
    (sortByLen_perm l).mem_iff.mp (getLastD_mem default hs)
  have h1 : ((sortByLen l).getLastD default).len ≤ maxLen l := maxLen_ge hmem
  obtain ⟨t, ht, hlen⟩ := maxLen_mem h
  have ht' : t ∈ sortByLen l := (sortByLen_perm l).mem_iff.mpr ht
  have hsorted : List.Sorted lenLe (sortByLen l) := List.sorted_insertionSort lenLe l
  have h2 := sorted_getLastD_max hsorted default t ht'
  omega

theorem filter_orderedInsert_max {M : Nat} {x : Token} (hx : x.len = M) :
    ∀ l : List Token, (∀ y ∈ l, y.len ≤ M) →
      (List.orderedInsert lenLe x l).filter (fun t => t.len == M)
        = x :: l.filter (fun t => t.len == M) := by
  intro l
  induction l with
  | nil => simp [hx]
  | cons y ys ih =>
    intro hbound
    by_cases hcmp : lenLe x y
    · rw [List.orderedInsert_of_le _ _ hcmp]
      have hy : y.len = M := by
        have := hbound y (List.mem_cons_self y ys)
        unfold lenLe at hcmp
        omega
      simp [List.filter_cons, hx, hy]
    · show (if lenLe x y then x :: y :: ys else y :: List.orderedInsert lenLe x ys).filter _ = _
      rw [if_neg hcmp]
      have hy : ¬y.len = M := by
        unfold lenLe at hcmp
        omega
      have hys := ih fun z hz => hbound z (List.mem_cons_of_mem y hz)
      simp [List.filter_cons, hy, hys]

theorem filter_orderedInsert_not_max {M : Nat} {x : Token} (hx : ¬x.len = M) :
    ∀ l : List Token,
      (List.orderedInsert lenLe x l).filter (fun t => t.len == M)
        = l.filter (fun t => t.len == M) := by
  intro l
  induction l with
  | nil => simp [hx]
  | cons y ys ih =>
    by_cases hcmp : lenLe x y
    · rw [List.orderedInsert_of_le _ _ hcmp]
      simp [List.filter_cons, hx]
    · show (if lenLe x y then x :: y :: ys else y :: List.orderedInsert lenLe x ys).filter _ = _
      rw [if_neg hcmp]
      by_cases hy : y.len = M
      · simp only [List.filter_cons, hy]
        simp [ih]
      · simp [List.filter_cons, hy, ih]

theorem filter_insertionSort_max (M : Nat) :
    ∀ l : List Token, (∀ t ∈ l, t.len ≤ M) →
      (List.insertionSort lenLe l).filter (fun t => t.len == M)
        = l.filter (fun t => t.len == M) := by
  intro l
  induction l with
  | nil => simp
  | cons x xs ih =>
    intro hbound
    show (List.orderedInsert lenLe x (List.insertionSort lenLe xs)).filter _ = _
    have hxs := ih fun z hz => hbound z (List.mem_cons_of_mem x hz)
    have hsortbound : ∀ y ∈ List.insertionSort lenLe xs, y.len ≤ M := fun y hy =>
      hbound y (List.mem_cons_of_mem x ((List.perm_insertionSort lenLe xs).mem_iff.mp hy))
    by_cases hx : x.len = M
    · rw [filter_orderedInsert_max hx _ hsortbound, hxs]
      simp [List.filter_cons, hx]
    · rw [filter_orderedInsert_not_max hx, hxs]
      simp [List.filter_cons, hx]

/-- `keepMaxLen` is exactly: keep, in the original candidate order, the
candidates achieving the maximal length (the stability of Python's
`sorted` is what makes the original order survive). -/
theorem keepMaxLen_eq {l : List Token} (h : l ≠ []) :
    keepMaxLen l = l.filter fun t => t.len == maxLen l := by
  show (sortByLen l).filter (fun t => t.len == ((sortByLen l).getLastD default).len)
    = l.filter fun t => t.len == maxLen l
  rw [getLastD_sortByLen_len h]
  exact filter_insertionSort_max (maxLen l) l (fun _ => maxLen_ge)

theorem keepMaxLen_ne_nil {l : List Token} (h : l ≠ []) : keepMaxLen l ≠ [] := by
  rw [keepMaxLen_eq h]
  obtain ⟨t, ht, hlen⟩ := maxLen_mem h
  intro hnil
  have hmem : t ∈ l.filter fun t => t.len == maxLen l :=
    List.mem_filter.mpr ⟨ht, by simp [hlen]⟩
  rw [hnil] at hmem
  simp at hmem

/-! ### Properties of the alternative chain -/

theorem Token.chainList_setAlternative_some (t u : Token) :
    (t.setAlternative (some u)).chainList = t.setAlternative (some u) :: u.chainList := by
  cases t
  rfl

theorem Token.chainList_of_alternative_none {t : Token} (h : t.alternative = none) :
    t.chainList = [t] := by
  cases t with
  | mk ty r lx a =>
    cases a with
    | none => rfl
    | some u => simp [Token.alternative] at h

theorem Token.chainList_ne_nil (t : Token) : t.chainList ≠ [] := by
  cases t with
  | mk ty r lx a => cases a <;> simp [Token.chainList]

theorem Token.chainList_getLast_alternative :
    ∀ t : Token, (t.chainList.getLastD t).alternative = none
  | .mk ty r lx none => by simp [Token.chainList, Token.alternative]
  | .mk ty r lx (some u) => by
    have ih := Token.chainList_getLast_alternative u
    show ((Token.mk ty r lx (some u) :: u.chainList).getLastD _).alternative = none
    rw [List.getLastD_cons]
    rw [getLastD_default_irrel _ u (Token.chainList_ne_nil u)]
    exact ih

theorem chainAlternatives_chainList_map_type (ms : List Token) :
    ∀ m : Token, (chainAlternatives m ms).chainList.map Token.type
      = (ms.map Token.type).reverse ++ m.chainList.map Token.type := by
  induction ms with
  | nil => intro m; simp [chainAlternatives]
  | cons m' ms ih =>
    intro m
    show (chainAlternatives (m'.setAlternative (some m)) ms).chainList.map Token.type = _
    rw [ih (m'.setAlternative (some m))]
    rw [Token.chainList_setAlternative_some]
    simp [Token.type_setAlternative]

/-- The token built by the chaining loop is the last candidate, up to its
`alternative` field. -/
theorem chainAlternatives_fields (ms : List Token) :
    ∀ m : Token,
      (chainAlternatives m ms).type = ((m :: ms).getLastD default).type ∧
      (chainAlternatives m ms).rng = ((m :: ms).getLastD default).rng ∧
      (chainAlternatives m ms).len = ((m :: ms).getLastD default).len := by
  induction ms with
  | nil => intro m; simp [chainAlternatives, List.getLastD_cons]
  | cons m' ms ih =>
    intro m
    show (chainAlternatives (m'.setAlternative (some m)) ms).type = _ ∧
      (chainAlternatives (m'.setAlternative (some m)) ms).rng = _ ∧
      (chainAlternatives (m'.setAlternative (some m)) ms).len = _
    obtain ⟨h1, h2, h3⟩ := ih (m'.setAlternative (some m))
    rw [h1, h2, h3]
    rw [List.getLastD_cons, List.getLastD_cons]
    by_cases hms : ms = []
    · subst hms
      simp [Token.type_setAlternative, Token.rng_setAlternative, Token.len_setAlternative]
    · rw [getLastD_default_irrel _ m' hms, List.getLastD_cons,
        getLastD_default_irrel _ m' hms]
      exact ⟨rfl, rfl, rfl⟩

theorem chainAlternatives_mem (ms : List Token) :
    ∀ m : Token, ∃ u ∈ m :: ms,
      (chainAlternatives m ms).type = u.type ∧
      (chainAlternatives m ms).rng = u.rng ∧
      (chainAlternatives m ms).len = u.len := by
  intro m
  exact ⟨(m :: ms).getLastD default, getLastD_mem default (by simp), chainAlternatives_fields ms m⟩

/-! ### Characterizing `parse_token` -/

theorem parse_token_error_iff {src : Source} {pos : Cursor} {tts : List TokenType} {p : Cursor} :
    parse_token src pos tts = .error p ↔
      (p = pos ∧ parseMatches src pos tts = []) := by
  unfold parse_token
  by_cases hempty : (parseMatches src pos tts).isEmpty
  · simp only [if_pos hempty]
    simp only [List.isEmpty_iff] at hempty
    constructor
    · intro h
      injection h with h
      exact ⟨h.symm, hempty⟩
    · rintro ⟨rfl, _⟩; rfl
  · simp only [if_neg hempty]
    simp only [List.isEmpty_iff] at hempty
    cases hkeep : keepMaxLen (parseMatches src pos tts) with
    | nil => exact absurd hkeep (keepMaxLen_ne_nil hempty)
    | cons m ms =>
      constructor
      · intro h; exact absurd h (by simp)
      · rintro ⟨_, h⟩; exact absurd h hempty

theorem parse_token_ok {src : Source} {pos : Cursor} {tts : List TokenType}
    {t : Token} {p' : Cursor} (h : parse_token src pos tts = .ok (t, p')) :
    ∃ m ms, keepMaxLen (parseMatches src pos tts) = m :: ms ∧
      parseMatches src pos tts ≠ [] ∧
      t = chainAlternatives m ms ∧
      p' = src.skip_whitespace t.rng.stop := by
  unfold parse_token at h
  by_cases hempty : (parseMatches src pos tts).isEmpty
  · rw [if_pos hempty] at h
    exact absurd h (by simp)
  · rw [if_neg hempty] at h
    simp only [List.isEmpty_iff] at hempty
    cases hkeep : keepMaxLen (parseMatches src pos tts) with
    | nil => exact absurd hkeep (keepMaxLen_ne_nil hempty)
    | cons m ms =>
      rw [hkeep] at h
      injection h with h
      injection h with h1 h2
      exact ⟨m, ms, rfl, hempty, h1.symm, by rw [← h2, h1]⟩

theorem parseMatches_mem {src : Source} {pos : Cursor} {tts : List TokenType} {c : Token}
    (h : c ∈ parseMatches src pos tts) :
    ∃ tt ∈ tts, ∃ n, tt.pat (src.remainder pos) = some n ∧
      c = Token.make src tt.name ⟨pos, src.nextN pos n⟩ := by
  unfold parseMatches at h
  obtain ⟨tt, htt, hc⟩ := List.mem_filterMap.mp h
  cases hpat : tt.pat (src.remainder pos) with
  | none => rw [hpat] at hc; exact absurd hc (by simp)
  | some n =>
    rw [hpat] at hc
    refine ⟨tt, htt, n, hpat, ?_⟩
    injection hc with hc
    exact hc.symm

theorem parseMatches_of_pat {src : Source} {pos : Cursor} {tts : List TokenType}
    {tt : TokenType} {n : Nat} (htt : tt ∈ tts) (hpat : tt.pat (src.remainder pos) = some n) :
    Token.make src tt.name ⟨pos, src.nextN pos n⟩ ∈ parseMatches src pos tts := by
  unfold parseMatches
  apply List.mem_filterMap.mpr
  exact ⟨tt, htt, by rw [hpat]⟩

theorem Source.remainder_length (src : Source) (pos : Cursor) :
    (src.remainder pos).length = src.cols pos.row - pos.col := by
  show ((src.line pos.row).data.drop pos.col).length = _
  rw [List.length_drop]
  rfl

/-- The shape of a candidate token when the matched length fits inside the
line remainder (as every real regex match does): the range spans `n`
columns, the lexeme has length `n`, and `Source.len` of the range is `n`. -/
theorem candidate_shape {src : Source} {pos : Cursor} (ty : String) {n : Nat}
    (hrow : pos.row < src.rows) (hn : n ≤ (src.remainder pos).length) :
    (Token.make src ty ⟨pos, src.nextN pos n⟩).len = n ∧
    src.len (Token.make src ty ⟨pos, src.nextN pos n⟩).rng = n ∧
    (Token.make src ty ⟨pos, src.nextN pos n⟩).rng = ⟨pos, src.nextN pos n⟩ := by
  obtain ⟨row, col⟩ := pos
  rw [Source.remainder_length] at hn
  refine ⟨?_, ?_, rfl⟩
  · cases n with
    | zero =>
      show (src.str_at ⟨⟨row, col⟩, src.nextN ⟨row, col⟩ 0⟩).length = 0
      show (src.str_at ⟨⟨row, col⟩, ⟨row, col⟩⟩).length = 0
      unfold Source.str_at
      rw [Source.range_eq]
      simp
    | succ k =>
      have hcols : col + (k + 1) ≤ src.cols row := by
        simp only at hn
        omega
      show (src.str_at ⟨⟨row, col⟩, src.nextN ⟨row, col⟩ (k + 1)⟩).length = k + 1
      rw [Source.nextN_within_line (k + 1) hcols]
      exact Source.str_at_length_within_line (k + 1) hrow hcols
  · cases n with
    | zero =>
      show (src.range ⟨row, col⟩ (some (src.nextN ⟨row, col⟩ 0))).length = 0
      show (src.range ⟨row, col⟩ (some ⟨row, col⟩)).length = 0
      rw [Source.range_eq]
      simp
    | succ k =>
      have hcols : col + (k + 1) ≤ src.cols row := by
        simp only at hn
        omega
      show (src.range ⟨row, col⟩ (some (src.nextN ⟨row, col⟩ (k + 1)))).length = k + 1
      rw [Source.nextN_within_line (k + 1) hcols]
      exact Source.len_within_line (k + 1) hrow hcols

/-! ### The lexeme invariant (`Token.__post_init__`) -/

/-- The token's lexeme is the materialized source substring of its range,
and the same holds along its entire alternative chain. -/
def Token.lexeme_ok (src : Source) : Token → Bool
  | .mk _ r lx a =>
    (lx == src.str_at r) &&
      (match a with
       | none => true
       | some u => u.lexeme_ok src)

theorem Token.lexeme_ok_make (src : Source) (ty : String) (rng : CursorRange) :
    (Token.make src ty rng).lexeme_ok src = true := by
  simp [Token.make, Token.lexeme_ok]

theorem Token.lexeme_ok_setAlternative_some (src : Source) (t u : Token) :
    (t.setAlternative (some u)).lexeme_ok src
      = ((t.lexeme == src.str_at t.rng) && u.lexeme_ok src) := by
  cases t
  rfl

theorem Token.lexeme_ok_base {src : Source} {t : Token} (h : t.lexeme_ok src = true) :
    (t.lexeme == src.str_at t.rng) = true := by
  cases t with
  | mk ty r lx a =>
    cases a with
    | none => simpa [Token.lexeme_ok, Token.lexeme, Token.rng] using h
    | some u =>
      simp only [Token.lexeme_ok, Bool.and_eq_true] at h
      simpa [Token.lexeme, Token.rng] using h.1

theorem keepMaxLen_subset {l : List Token} {x : Token} (hx : x ∈ keepMaxLen l) : x ∈ l := by
  simp only [keepMaxLen] at hx
  exact (sortByLen_perm l).mem_iff.mp (List.mem_filter.mp hx).1

theorem parseMatches_lexeme_ok {src : Source} {pos : Cursor} {tts : List TokenType}
    {c : Token} (h : c ∈ parseMatches src pos tts) : c.lexeme_ok src = true := by
  obtain ⟨tt, _, n, _, rfl⟩ := parseMatches_mem h
  exact Token.lexeme_ok_make src tt.name _

theorem chainAlternatives_lexeme_ok {src : Source} (ms : List Token) :
    ∀ m : Token, m.lexeme_ok src = true → (∀ x ∈ ms, x.lexeme_ok src = true) →
      (chainAlternatives m ms).lexeme_ok src = true := by
  induction ms with
  | nil => intro m hm _; exact hm
  | cons m' ms ih =>
    intro m hm hms
    show (chainAlternatives (m'.setAlternative (some m)) ms).lexeme_ok src = true
    apply ih
    · rw [Token.lexeme_ok_setAlternative_some]
      rw [Token.lexeme_ok_base (hms m' (List.mem_cons_self m' ms)), hm]
      rfl
    · exact fun x hx => hms x (List.mem_cons_of_mem m' hx)

theorem parse_token_lexeme_ok {src : Source} {pos : Cursor} {tts : List TokenType}
    {t : Token} {p' : Cursor} (h : parse_token src pos tts = .ok (t, p')) :
    t.lexeme_ok src = true := by
  obtain ⟨m, ms, hkeep, _, rfl, _⟩ := parse_token_ok h
  apply chainAlternatives_lexeme_ok
  · exact parseMatches_lexeme_ok (keepMaxLen_subset (hkeep ▸ List.mem_cons_self m ms))
  · intro x hx
    exact parseMatches_lexeme_ok
      (keepMaxLen_subset (hkeep ▸ List.mem_cons_of_mem m hx))

theorem lexLoop_lexeme_ok {src : Source} {tts : List TokenType} :
    ∀ (fuel : Nat) (pos : Cursor) (toks : List Token),
      lexLoop src tts pos fuel = some (.ok toks) → ∀ t ∈ toks, t.lexeme_ok src = true := by
  intro fuel
  induction fuel with
  | zero => intro pos toks h; exact absurd h (by simp [lexLoop])
  | succ fuel ih =>
    intro pos toks h
    unfold lexLoop at h
    by_cases heof : src.char_at pos = .eof
    · rw [if_pos heof] at h
      injection h with h
      injection h with h
      subst h
      simp
    · rw [if_neg heof] at h
      cases hpt : parse_token src pos tts with
      | error p => rw [hpt] at h; simp at h
      | ok tp =>
        obtain ⟨t, pos'⟩ := tp
        rw [hpt] at h
        dsimp only at h
        cases hrec : lexLoop src tts pos' fuel with
        | none => rw [hrec] at h; simp at h
        | some r =>
          cases r with
          | error p => rw [hrec] at h; simp [Except.map] at h
          | ok ts =>
            rw [hrec] at h
            simp only [Option.map_some, Except.map] at h
            injection h with h
            injection h with h
            subst h
            intro u hu
            rcases List.mem_cons.mp hu with rfl | hu
            · exact parse_token_lexeme_ok hpt
            · exact ih pos' ts hrec u hu

theorem lex_lexeme_ok {src : Source} {tts : List TokenType} {fuel : Nat} {toks : List Token}
    (h : lex src tts fuel = some (.ok toks)) : ∀ t ∈ toks, t.lexeme_ok src = true :=
  lexLoop_lexeme_ok fuel _ toks h

/-! ### The gap invariant between consecutive tokens -/

/-- Tokens `a` and `b` are properly separated: `a` ends no later than `b`
starts, and every position strictly between the two ranges holds a
whitespace character. -/
def tokenGap (src : Source) (a b : Token) : Prop :=
  a.rng.stop ≤ b.rng.start ∧
    ∀ q ∈ src.range a.rng.stop (some b.rng.start),
      a.rng.stop < q → (src.char_at q).isWs = true

instance (src : Source) (a b : Token) : Decidable (tokenGap src a b) :=
  inferInstanceAs (Decidable (_ ∧ _))

theorem parse_token_start {src : Source} {pos : Cursor} {tts : List TokenType}
    {t : Token} {p' : Cursor} (h : parse_token src pos tts = .ok (t, p')) :
    t.rng.start = pos := by
  obtain ⟨m, ms, hkeep, _, rfl, _⟩ := parse_token_ok h
  obtain ⟨u, hu, _, hrng, _⟩ := chainAlternatives_mem ms m
  obtain ⟨tt, _, n, _, rfl⟩ :=
    parseMatches_mem (keepMaxLen_subset (hkeep ▸ hu))
  rw [hrng]
  rfl

theorem lexLoop_chain {src : Source} {tts : List TokenType} :
    ∀ (fuel : Nat) (pos : Cursor) (toks : List Token),
      lexLoop src tts pos fuel = some (.ok toks) →
      List.Chain' (tokenGap src) toks ∧
        ∀ u, toks.head? = some u → u.rng.start = pos := by
  intro fuel
  induction fuel with
  | zero => intro pos toks h; exact absurd h (by simp [lexLoop])
  | succ fuel ih =>
    intro pos toks h
    unfold lexLoop at h
    by_cases heof : src.char_at pos = .eof
    · rw [if_pos heof] at h
      injection h with h
      injection h with h
      subst h
      simp
    · rw [if_neg heof] at h
      cases hpt : parse_token src pos tts with
      | error p => rw [hpt] at h; simp at h
      | ok tp =>
        obtain ⟨t, pos'⟩ := tp
        rw [hpt] at h
        dsimp only at h
        cases hrec : lexLoop src tts pos' fuel with
        | none => rw [hrec] at h; simp at h
        | some r =>
          cases r with
          | error p => rw [hrec] at h; simp [Except.map] at h
          | ok ts =>
            rw [hrec] at h
            simp only [Option.map_some, Except.map] at h
            injection h with h
            injection h with h
            subst h
            obtain ⟨hchain, hhead⟩ := ih pos' ts hrec
            obtain ⟨_, _, _, _, rfl, hpos'⟩ := parse_token_ok hpt
            constructor
            · rw [List.chain'_cons']
              refine ⟨?_, hchain⟩
              intro u hu
              have hstart : u.rng.start = pos' := hhead u (by simpa using hu)
              constructor
              · rw [hstart, hpos']
                exact src.skip_whitespace_le _
              · intro q hq _
                rw [hstart, hpos'] at hq
                exact (src.skip_whitespace_trace _ q hq).1
            · intro u hu
              injection hu with hu
              subst hu
              exact parse_token_start hpt

/-! ### Whitespace-only sources -/

theorem Source.char_at_chr {src : Source} {pos : Cursor} {c : Char}
    (h : src.char_at pos = .chr c) :
    c = '\n' ∨ ∃ line ∈ src.lines, c ∈ line.data := by
  unfold Source.char_at at h
  split at h
  · rename_i hrow
    split at h
    · split at h
      · exact absurd h (by simp)
      · injection h with h
        exact Or.inl h.symm
    · split at h
      · rename_i hcol
        injection h with h
        refine Or.inr ⟨src.line pos.row, ?_, ?_⟩
        · show src.lines.getD pos.row "" ∈ src.lines
          rw [List.getD_eq_getElem?_getD]
          rw [List.getElem?_eq_getElem (by exact hrow)]
          exact List.getElem_mem _
        · rw [← h]
          have hlt : pos.col < (src.line pos.row).data.length := hcol
          rw [List.getD_eq_getElem?_getD, List.getElem?_eq_getElem hlt]
          exact List.getElem_mem _
      · exact absurd h (by simp)
  · exact absurd h (by simp)

theorem Source.skip_whitespace_eof_of_all_ws {src : Source}
    (hws : ∀ line ∈ src.lines, ∀ c ∈ line.data, c = ' ' ∨ c = '\t') (pos : Cursor) :
    src.char_at (src.skip_whitespace pos) = .eof := by
  have h1 := src.skip_whitespace_not_ws pos
  cases hchar : src.char_at (src.skip_whitespace pos) with
  | eof => rfl
  | chr c =>
    rw [hchar] at h1
    exfalso
    rcases Source.char_at_chr hchar with rfl | ⟨line, hline, hc⟩
    · simp [LChar.isWs, Lexer.WHITESPACE] at h1
    · rcases hws line hline c hc with rfl | rfl <;>
        simp [LChar.isWs, Lexer.WHITESPACE] at h1

theorem splitLines_ne_nil (cs : List Char) : splitLines cs ≠ [] := by
  cases cs with
  | nil => simp [splitLines]
  | cons c cs =>
    unfold splitLines
    by_cases hc : c = '\n'
    · simp [hc]
    · rw [if_neg hc]
      cases splitLines cs <;> simp

theorem splitLines_mem_chars :
    ∀ (cs : List Char) (line : String), line ∈ splitLines cs →
      ∀ c ∈ line.data, c ∈ cs ∧ c ≠ '\n' := by
  intro cs
  induction cs with
  | nil =>
    intro line hline c hc
    simp [splitLines] at hline
    subst hline
    simp at hc
  | cons c0 cs ih =>
    intro line hline c hc
    unfold splitLines at hline
    by_cases hc0 : c0 = '\n'
    · rw [if_pos hc0] at hline
      rcases List.mem_cons.mp hline with rfl | hline
      · simp at hc
      · have := ih line hline c hc
        exact ⟨List.mem_cons_of_mem c0 this.1, this.2⟩
    · rw [if_neg hc0] at hline
      cases hsplit : splitLines cs with
      | nil => exact absurd hsplit (splitLines_ne_nil cs)
      | cons l ls =>
        rw [hsplit] at hline
        rcases List.mem_cons.mp hline with rfl | hline
        · rcases List.mem_cons.mp hc with rfl | hcl
          · exact ⟨List.mem_cons_self c cs, hc0⟩
          · have := ih l (hsplit ▸ List.mem_cons_self l ls) c hcl
            exact ⟨List.mem_cons_of_mem c0 this.1, this.2⟩
        · have := ih line (hsplit ▸ List.mem_cons_of_mem l hline) c hc
          exact ⟨List.mem_cons_of_mem c0 this.1, this.2⟩

/-! ### Concrete token kinds (`lex.py` definitions and `langs/xml.py`) -/

def isAsciiUpper (c : Char) : Bool := 'A' ≤ c && c ≤ 'Z'

def isAsciiLower (c : Char) : Bool := 'a' ≤ c && c ≤ 'z'

def isAsciiDigit (c : Char) : Bool := '0' ≤ c && c ≤ '9'

def isAsciiAlpha (c : Char) : Bool := isAsciiUpper c || isAsciiLower c

def isAsciiAlnum (c : Char) : Bool := isAsciiAlpha c || isAsciiDigit c

/-- A regex of the form `first rest*`: one mandatory character from the
first class followed by a greedy run of characters from the rest class. -/
def classStarMatch (first rest : Char → Bool) (s : String) : Option Nat :=
  match s.data with
  | [] => none
  | c :: cs => if first c then some (1 + (cs.takeWhile rest).length) else none

/-- A literal-string regex (all regex metacharacters escaped). -/
def litMatch (lit : String) (s : String) : Option Nat :=
  if lit.data.isPrefixOf s.data then some lit.data.length else none

/-- `Identifier = Token.define("Identifier", r"[A-Za-z_][A-Za-z0-9_]*")` (`lex.py`). -/
def Identifier : TokenType :=
  ⟨"Identifier",
   classStarMatch (fun c => isAsciiAlpha c || c = '_') (fun c => isAsciiAlnum c || c = '_')⟩

/-- `Equals = Token.define("Equals", r"=")` (`lex.py`). -/
def Equals : TokenType := ⟨"Equals", litMatch "="⟩

/-- `'[^']*'` or `"[^"]*"`: a quote, a greedy run of non-quote characters,
and the closing quote (the run cannot cross a quote, so the first closing
quote ends the match). -/
def quotedMatch (q : Char) (s : String) : Option Nat :=
  match s.data with
  | [] => none
  | c :: cs =>
    if c = q then
      match cs.findIdx? (fun d => d = q) with
      | none => none
      | some i => some (i + 2)
    else none

/-- `<!--.*-->`: after the literal opener, `.*` is greedy with
backtracking and `.` does not match a newline, so the match ends at the
last `-->` whose body lies on the line. -/
def commentMatch (s : String) : Option Nat :=
  if ("<!--".data).isPrefixOf s.data then
    ((((List.range (s.data.length + 1)).filter fun i =>
        decide (4 ≤ i) && ("-->".data).isPrefixOf (s.data.drop i)
          && !((s.data.take i).drop 4).contains '\n').getLast?).map fun i => i + 3)
  else none

/-- `<!\[CDATA\[[^\]]*\]\]>`: the greedy `[^\]]*` run stops at the first
`]`, which must start the literal closer. -/
def cdataMatch (s : String) : Option Nat :=
  if ("<![CDATA[".data).isPrefixOf s.data then
    let body := s.data.drop 9
    let k := (body.takeWhile fun c => c ≠ ']').length
    if ("]]>".data).isPrefixOf (body.drop k) then some (9 + k + 3) else none
  else none

/-- First character class of `Text` (`xml.py`): every printable ASCII
character except space and `<`. -/
def textFirst (c : Char) : Bool := 0x21 ≤ c.toNat && c.toNat ≤ 0x7e && c ≠ '<'

/-- Middle character class of `Text`: the first class plus the space. -/
def textMid (c : Char) : Bool := textFirst c || c = ' '

/-- Final character class of `Text`: `[^ \t<]`. -/
def textLast (c : Char) : Bool := !(c = ' ' || c = '\t' || c = '<')

/-- Backtracking for a greedy star followed by one mandatory character:
the largest `j` at or below the greedy run length whose following
character exists and satisfies `p`. -/
def btLast (cs : List Char) (p : Char → Bool) : Nat → Option Nat
  | 0 => if (cs[0]?).any p then some 0 else none
  | j + 1 => if (cs[j + 1]?).any p then some (j + 1) else btLast cs p j

/-- The `Text` matching rule (`xml.py`): one first-class character, a
greedy (backtracking) run of middle-class characters, and one final
`[^ \t<]` character. -/
def textMatch (s : String) : Option Nat :=
  match s.data with
  | [] => none
  | c :: cs =>
    if textFirst c then
      match btLast cs textLast ((cs.takeWhile textMid).length) with
      | some j => some (j + 2)
      | none => none
    else none

/-- `Xml.OpenXmlDeclaration`: `<\?xml`. -/
def Xml.OpenXmlDeclaration : TokenType := ⟨"Open Xml Declaration", litMatch "<?xml"⟩

/-- `Xml.CloseXmlDeclaration`: `\?>`. -/
def Xml.CloseXmlDeclaration : TokenType := ⟨"Close Xml Declaration", litMatch "?>"⟩

/-- `Xml.String`: `'[^']*'|"[^"]*"` (the alternatives are tried in order;
they start with different characters, so order does not matter). -/
def Xml.String : TokenType :=
  ⟨"String", fun s =>
    match quotedMatch '\'' s with
    | some n => some n
    | none => quotedMatch '"' s⟩

/-- `Xml.TagName`: `[A-Za-z0-9][A-Za-z0-9_.-]*`. -/
def Xml.TagName : TokenType :=
  ⟨"Tag Name",
   classStarMatch isAsciiAlnum (fun c => isAsciiAlnum c || c = '_' || c = '.' || c = '-')⟩

/-- `Xml.Comment`: `<!--.*-->`. -/
def Xml.Comment : TokenType := ⟨"Comment", commentMatch⟩

/-- `Xml.Cdata`: `<!\[CDATA\[[^\]]*\]\]>`. -/
def Xml.Cdata : TokenType := ⟨"CDATA", cdataMatch⟩

/-- `Xml.OpenTag`: `<`. -/
def Xml.OpenTag : TokenType := ⟨"Open Tag", litMatch "<"⟩

/-- `Xml.OpenSelfClosingTag`: `</`. -/
def Xml.OpenSelfClosingTag : TokenType := ⟨"Open Self-closing Tag", litMatch "</"⟩

/-- `Xml.CloseOpeningTag`: `>`. -/
def Xml.CloseOpeningTag : TokenType := ⟨"Close Opening Tag", litMatch ">"⟩

/-- `Xml.CloseClosingTag`: `/>`. -/
def Xml.CloseClosingTag : TokenType := ⟨"Close Closing Tag", litMatch "/>"⟩

/-- `Xml.Text`. -/
def Xml.Text : TokenType := ⟨"Text", textMatch⟩

/-- `Xml.token_types_excluding_text`. -/
def Xml.token_types_excluding_text : List TokenType :=
  [Xml.OpenXmlDeclaration, Xml.CloseXmlDeclaration, Xml.TagName, Identifier, Equals,
   Xml.String, Xml.Comment, Xml.Cdata, Xml.OpenTag, Xml.OpenSelfClosingTag,
   Xml.CloseOpeningTag, Xml.CloseClosingTag]

/-- `Xml.token_types = token_types_excluding_text + [Text]`. -/
def Xml.token_types : List TokenType := Xml.token_types_excluding_text ++ [Xml.Text]

/-- The candidate-list selection of `Xml.Lexer.Instance.lex`, as a function
of the tokens emitted so far:
`if result and result[-1].token_type() == "Close Opening Tag"`. -/
def xmlCandidates (result : List Token) : List TokenType :=
  if result.getLast?.any fun t => t.type == "Close Opening Tag" then
    Xml.token_types
  else
    Xml.token_types_excluding_text

/-- The `Xml.Lexer.Instance.lex` loop, carrying the emitted-so-far list
that the candidate selection inspects. -/
def xmlLexLoop (src : Source) : List Token → Cursor → Nat → Option (Except Cursor (List Token))
  | _, _, 0 => none  -- out of fuel
  | acc, pos, fuel + 1 =>
    if src.char_at pos = .eof then some (.ok acc)
    else
      match parse_token src pos (xmlCandidates acc) with
      | .error p => some (.error p)
      | .ok (t, pos') => xmlLexLoop src (acc ++ [t]) pos' fuel

/-- `Xml.Lexer().lex(src)` with fuel. -/
def xmlLex (src : Source) (fuel : Nat) : Option (Except Cursor (List Token)) :=
  xmlLexLoop src [] (src.skip_whitespace ⟨0, 0⟩) fuel

/-! ### Bridge lemmas for the claims -/

theorem Token.lexeme_ok_chain {src : Source} :
    ∀ t : Token, t.lexeme_ok src = true → ∀ u ∈ t.chainList, u.lexeme = src.str_at u.rng
  | .mk ty r lx none, h, u, hu => by
    simp only [Token.chainList, List.mem_singleton] at hu
    subst hu
    simpa [Token.lexeme_ok, Token.lexeme, Token.rng] using h
  | .mk ty r lx (some v), h, u, hu => by
    simp only [Token.lexeme_ok, Bool.and_eq_true] at h
    simp only [Token.chainList, List.mem_cons] at hu
    rcases hu with rfl | hu
    · simpa [Token.lexeme, Token.rng] using h.1
    · exact Token.lexeme_ok_chain v h.2 u hu

/-- Demonstration kinds for the witnesses: each matches exactly one
character of any nonempty remainder, so at any position they tie. -/
def kindA : TokenType := ⟨"A", fun s => if s.length = 0 then none else some 1⟩

/-- Second demonstration kind, identical matching rule to `kindA`. -/
def kindB : TokenType := ⟨"B", fun s => if s.length = 0 then none else some 1⟩

/-! ### The claims -/

/-- C9: after every `skip_whitespace` call the cursor has not moved
backwards, every position it passed over (strictly before the new cursor)
held a whitespace character, and the character at the new cursor is not
whitespace — the end-of-input marker counts as non-whitespace, so the
skipping always stops there. -/
theorem skip_whitespace_spec (src : Source) (pos : Cursor) :
    pos ≤ src.skip_whitespace pos ∧
    (∀ q ∈ src.range pos (some (src.skip_whitespace pos)),
      (src.char_at q).isWs = true ∧ q < src.skip_whitespace pos) ∧
    (src.char_at (src.skip_whitespace pos)).isWs = false :=
  ⟨src.skip_whitespace_le pos, src.skip_whitespace_trace pos,
    src.skip_whitespace_not_ws pos⟩

/-- C4: every token emitted by `lex`, and every token reachable through an
`alternative` chain, has its lexeme exactly equal to the source substring
over its range (the concatenation of the logical characters over the
range). -/
theorem lex_lexeme_eq_substring {src : Source} {tts : List TokenType} {fuel : Nat}
    {toks : List Token} (h : lex src tts fuel = some (.ok toks)) :
    ∀ t ∈ toks, ∀ u ∈ t.chainList, u.lexeme = src.str_at u.rng :=
  fun t ht u hu => Token.lexeme_ok_chain t (lex_lexeme_ok h t ht) u hu

/-- C4 witness: a concrete two-token run with an ambiguity chain. -/
theorem lex_lexeme_eq_substring_witness :
    lex (Source.ofString "a b") [kindA, kindB] 3 = some (.ok
      [Token.mk "B" ⟨⟨0, 0⟩, ⟨0, 1⟩⟩ "a" (some (Token.mk "A" ⟨⟨0, 0⟩, ⟨0, 1⟩⟩ "a" none)),
       Token.mk "B" ⟨⟨0, 2⟩, ⟨0, 3⟩⟩ "b" (some (Token.mk "A" ⟨⟨0, 2⟩, ⟨0, 3⟩⟩ "b" none))]) ∧
    (Token.mk "A" ⟨⟨0, 0⟩, ⟨0, 1⟩⟩ "a" none).lexeme
      = (Source.ofString "a b").str_at ⟨⟨0, 0⟩, ⟨0, 1⟩⟩ :=
  ⟨rfl,
   lex_lexeme_eq_substring
     (show lex (Source.ofString "a b") [kindA, kindB] 3 = some (.ok
        [Token.mk "B" ⟨⟨0, 0⟩, ⟨0, 1⟩⟩ "a" (some (Token.mk "A" ⟨⟨0, 0⟩, ⟨0, 1⟩⟩ "a" none)),
         Token.mk "B" ⟨⟨0, 2⟩, ⟨0, 3⟩⟩ "b" (some (Token.mk "A" ⟨⟨0, 2⟩, ⟨0, 3⟩⟩ "b" none))])
      from rfl)
     (Token.mk "B" ⟨⟨0, 0⟩, ⟨0, 1⟩⟩ "a" (some (Token.mk "A" ⟨⟨0, 0⟩, ⟨0, 1⟩⟩ "a" none)))
     (List.mem_cons_self _ _)
     (Token.mk "A" ⟨⟨0, 0⟩, ⟨0, 1⟩⟩ "a" none)
     (List.mem_cons_of_mem _ (List.mem_cons_self _ _))⟩

/-- C6: the tokens produced by `lex` have non-decreasing, non-overlapping
ranges, and every position strictly between one token's end and the next
token's start holds a whitespace character. -/
theorem lex_ranges_ordered {src : Source} {tts : List TokenType} {fuel : Nat}
    {toks : List Token} (h : lex src tts fuel = some (.ok toks)) :
    toks.Chain' (tokenGap src) :=
  (lexLoop_chain fuel _ toks h).1

/-- C6 witness: a concrete run whose two tokens are separated by a space. -/
theorem lex_ranges_ordered_witness :
    lex (Source.ofString "a b") [kindA] 3 = some (.ok
      [Token.mk "A" ⟨⟨0, 0⟩, ⟨0, 1⟩⟩ "a" none,
       Token.mk "A" ⟨⟨0, 2⟩, ⟨0, 3⟩⟩ "b" none]) ∧
    List.Chain' (tokenGap (Source.ofString "a b"))
      [Token.mk "A" ⟨⟨0, 0⟩, ⟨0, 1⟩⟩ "a" none,
       Token.mk "A" ⟨⟨0, 2⟩, ⟨0, 3⟩⟩ "b" none] :=
  ⟨rfl,
   lex_ranges_ordered
     (show lex (Source.ofString "a b") [kindA] 3 = some (.ok
        [Token.mk "A" ⟨⟨0, 0⟩, ⟨0, 1⟩⟩ "a" none,
         Token.mk "A" ⟨⟨0, 2⟩, ⟨0, 3⟩⟩ "b" none])
      from rfl)⟩

/-- A token kind whose matching rule matches the empty string at every
position, as the regex `a*` does on input not starting with `a`: Python's
`re.match` then returns a zero-length match object, not `None`, and the
collection loop of `parse_token` keeps it. -/
def emptyStarKind : TokenType := ⟨"Star", fun _ => some 0⟩

/-- C3 (code bug): with a kind whose pattern matches the empty string,
`parse_token` does not fail — it returns a zero-width token (range start
equals range end) and leaves the cursor in place, so `lex` never
terminates: it runs out of every amount of fuel.  The spec instead
promises that only non-empty matches are collected and that each step
consumes at least one character or fails outright. -/
theorem parse_token_zero_width_loop :
    parse_token (Source.ofString "b") ⟨0, 0⟩ [emptyStarKind]
      = .ok (Token.mk "Star" ⟨⟨0, 0⟩, ⟨0, 0⟩⟩ "" none, ⟨0, 0⟩) ∧
    (Token.mk "Star" ⟨⟨0, 0⟩, ⟨0, 0⟩⟩ "" none).rng.start
      = (Token.mk "Star" ⟨⟨0, 0⟩, ⟨0, 0⟩⟩ "" none).rng.stop ∧
    ∀ fuel : Nat, lex (Source.ofString "b") [emptyStarKind] fuel = none := by
  refine ⟨rfl, rfl, ?_⟩
  have key : ∀ fuel : Nat,
      lexLoop (Source.ofString "b") [emptyStarKind] ⟨0, 0⟩ fuel = none := by
    intro fuel
    induction fuel with
    | zero => rfl
    | succ fuel ih =>
      show (if (Source.ofString "b").char_at ⟨0, 0⟩ = .eof then _ else _) = none
      rw [if_neg (by decide)]
      rw [show parse_token (Source.ofString "b") ⟨0, 0⟩ [emptyStarKind]
          = .ok (Token.mk "Star" ⟨⟨0, 0⟩, ⟨0, 0⟩⟩ "" none, ⟨0, 0⟩) from rfl]
      dsimp only
      rw [ih]
      rfl
  intro fuel
  show lexLoop (Source.ofString "b") [emptyStarKind]
      ((Source.ofString "b").skip_whitespace ⟨0, 0⟩) fuel = none
  rw [show (Source.ofString "b").skip_whitespace ⟨0, 0⟩ = ⟨0, 0⟩ from rfl]
  exact key fuel

/-- C5 (code bug): at a position where the only applicable kind matches
only the empty prefix (so no kind matches any non-empty prefix), the code
does not raise the no-viable-token failure: it returns a zero-width
token.  The error is in fact raised exactly when no kind produces any
match at all (`parse_token_error_iff`), and then it carries the entry
cursor unchanged. -/
theorem parse_token_no_error_on_empty_match :
    emptyStarKind.pat ((Source.ofString "cd").remainder ⟨0, 0⟩) = some 0 ∧
    (∀ n, emptyStarKind.pat ((Source.ofString "cd").remainder ⟨0, 0⟩) = some n → n = 0) ∧
    parse_token (Source.ofString "cd") ⟨0, 0⟩ [emptyStarKind]
      = .ok (Token.mk "Star" ⟨⟨0, 0⟩, ⟨0, 0⟩⟩ "" none, ⟨0, 0⟩) := by
  refine ⟨rfl, ?_, rfl⟩
  intro n h
  injection h with h
  exact h.symm

/-- C8: source construction is total, and `lex` over the empty source, or
over a source whose text consists only of whitespace characters (spaces,
tabs, newlines), returns the empty token sequence without failing, for
every vocabulary and any positive amount of fuel. -/
theorem lex_whitespace_only (tts : List TokenType) (fuel : Nat) :
    lex (Source.ofString "") tts (fuel + 1) = some (.ok []) ∧
    ∀ s : String, (∀ c ∈ s.data, c = ' ' ∨ c = '\t' ∨ c = '\n') →
      lex (Source.ofString s) tts (fuel + 1) = some (.ok []) := by
  constructor
  · rfl
  · intro s hs
    have hws : ∀ line ∈ (Source.ofString s).lines, ∀ c ∈ line.data, c = ' ' ∨ c = '\t' := by
      intro line hline c hc
      obtain ⟨hcs, hnl⟩ := splitLines_mem_chars s.data line hline c hc
      rcases hs c hcs with rfl | rfl | rfl
      · exact Or.inl rfl
      · exact Or.inr rfl
      · exact absurd rfl hnl
    show lexLoop (Source.ofString s) tts
        ((Source.ofString s).skip_whitespace ⟨0, 0⟩) (fuel + 1) = some (.ok [])
    unfold lexLoop
    rw [if_pos (Source.skip_whitespace_eof_of_all_ws hws ⟨0, 0⟩)]

/-- C8 witness: a concrete whitespace-only source. -/
theorem lex_whitespace_only_witness :
    (∀ c ∈ (" \t\n " : String).data, c = ' ' ∨ c = '\t' ∨ c = '\n') ∧
    lex (Source.ofString " \t\n ") [kindA] 1 = some (.ok []) :=
  ⟨by decide, (lex_whitespace_only [kindA] 0).2 " \t\n " (by decide)⟩

/-- C10: in the Xml lexer, the Text kind is a candidate for a step exactly
when at least one token has been emitted and the most recently emitted
token's type is "Close Opening Tag"; in particular it is never a
candidate at the first step, nor right after a "Close Closing Tag"
(`/>`), nor right after another Text token. -/
theorem xmlCandidates_text_iff (result : List Token) :
    (((xmlCandidates result).any fun tt => tt.name == "Text")
      = (result.getLast?.any fun t => t.type == "Close Opening Tag")) ∧
    (((xmlCandidates []).any fun tt => tt.name == "Text") = false) ∧
    (∀ (ts : List Token) (t : Token),
      t.type = "Close Closing Tag" ∨ t.type = "Text" →
      ((xmlCandidates (ts ++ [t])).any fun tt => tt.name == "Text") = false) := by
  have hfull : (Xml.token_types.any fun tt => tt.name == "Text") = true := rfl
  have hexcl : (Xml.token_types_excluding_text.any fun tt => tt.name == "Text") = false := rfl
  have main : ∀ result : List Token,
      ((xmlCandidates result).any fun tt => tt.name == "Text")
        = (result.getLast?.any fun t => t.type == "Close Opening Tag") := by
    intro result
    unfold xmlCandidates
    by_cases hcond : (result.getLast?.any fun t => t.type == "Close Opening Tag") = true
    · rw [if_pos hcond, hcond, hfull]
    · rw [if_neg hcond, hexcl]
      simp only [Bool.not_eq_true] at hcond
      rw [hcond]
  refine ⟨main result, by rw [main []]; rfl, ?_⟩
  intro ts t ht
  rw [main (ts ++ [t])]
  rw [List.getLast?_concat]
  rcases ht with ht | ht <;> simp [Option.any, ht]

/-- C10 witness: right after a `/>` token, Text is not among the
candidates. -/
theorem xmlCandidates_text_iff_witness :
    ((Token.mk "Close Closing Tag" ⟨⟨0, 0⟩, ⟨0, 2⟩⟩ "/>" none).type = "Close Closing Tag" ∨
      (Token.mk "Close Closing Tag" ⟨⟨0, 0⟩, ⟨0, 2⟩⟩ "/>" none).type = "Text") ∧
    ((xmlCandidates ([] ++ [Token.mk "Close Closing Tag" ⟨⟨0, 0⟩, ⟨0, 2⟩⟩ "/>" none])).any
        fun tt => tt.name == "Text") = false :=
  ⟨Or.inl rfl,
   (xmlCandidates_text_iff []).2.2 [] (Token.mk "Close Closing Tag" ⟨⟨0, 0⟩, ⟨0, 2⟩⟩ "/>" none)
     (Or.inl rfl)⟩

theorem parseMatches_alternative_none {src : Source} {pos : Cursor} {tts : List TokenType}
    {c : Token} (h : c ∈ parseMatches src pos tts) : c.alternative = none := by
  obtain ⟨tt, _, n, _, rfl⟩ := parseMatches_mem h
  rfl

theorem keepMaxLen_mem_len {l : List Token} {u : Token} (h : l ≠ [])
    (hu : u ∈ keepMaxLen l) : u.len = maxLen l := by
  rw [keepMaxLen_eq h] at hu
  have := (List.mem_filter.mp hu).2
  simpa using this

theorem getLastD_map {α β : Type} (f : α → β) (l : List α) (d : α) :
    (l.map f).getLastD (f d) = f (l.getLastD d) := by
  induction l generalizing d with
  | nil => rfl
  | cons x xs ih => rw [List.map_cons, List.getLastD_cons, List.getLastD_cons, ih]

/-- The candidates of maximal matched length at a position, in the
original candidate order. -/
def tiedMax (src : Source) (pos : Cursor) (tts : List TokenType) : List Token :=
  (parseMatches src pos tts).filter fun t => t.len == maxLen (parseMatches src pos tts)

/-- C1: when two or more kinds tie at the maximal match length, the token
`parse_token` returns is of the kind occurring last among the tied
candidates in the supplied order, walking `alternative` yields exactly the
tied candidates in reverse candidate order, and the chain ends in a token
with no alternative. -/
theorem parse_token_tie_break {src : Source} {pos : Cursor} {tts : List TokenType}
    {t : Token} {p' : Cursor}
    (h : parse_token src pos tts = .ok (t, p'))
    (htie : 2 ≤ (tiedMax src pos tts).length) :
    t.chainList.map Token.type = ((tiedMax src pos tts).map Token.type).reverse ∧
    t.type = ((tiedMax src pos tts).map Token.type).getLastD "" ∧
    (t.chainList.getLastD t).alternative = none := by
  obtain ⟨m, ms, hkeep, hne, rfl, _⟩ := parse_token_ok h
  have htied : tiedMax src pos tts = m :: ms := by
    unfold tiedMax
    rw [← keepMaxLen_eq hne]
    exact hkeep
  have hmalt : m.alternative = none :=
    parseMatches_alternative_none (keepMaxLen_subset (hkeep ▸ List.mem_cons_self m ms))
  refine ⟨?_, ?_, Token.chainList_getLast_alternative _⟩
  · rw [htied]
    rw [chainAlternatives_chainList_map_type ms m]
    rw [Token.chainList_of_alternative_none hmalt]
    simp
  · rw [htied]
    rw [(chainAlternatives_fields ms m).1]
    rw [getLastD_default_irrel "" (Token.type default) (by simp)]
    rw [getLastD_map Token.type (m :: ms) default]

/-- C1 witness: two kinds tying on a one-character match. -/
theorem parse_token_tie_break_witness :
    parse_token (Source.ofString "ab") ⟨0, 0⟩ [kindA, kindB]
      = .ok (Token.mk "B" ⟨⟨0, 0⟩, ⟨0, 1⟩⟩ "a"
              (some (Token.mk "A" ⟨⟨0, 0⟩, ⟨0, 1⟩⟩ "a" none)), ⟨0, 1⟩) ∧
    2 ≤ (tiedMax (Source.ofString "ab") ⟨0, 0⟩ [kindA, kindB]).length ∧
    ((Token.mk "B" ⟨⟨0, 0⟩, ⟨0, 1⟩⟩ "a"
        (some (Token.mk "A" ⟨⟨0, 0⟩, ⟨0, 1⟩⟩ "a" none))).chainList.map Token.type
        = ((tiedMax (Source.ofString "ab") ⟨0, 0⟩ [kindA, kindB]).map Token.type).reverse ∧
      (Token.mk "B" ⟨⟨0, 0⟩, ⟨0, 1⟩⟩ "a"
        (some (Token.mk "A" ⟨⟨0, 0⟩, ⟨0, 1⟩⟩ "a" none))).type
        = ((tiedMax (Source.ofString "ab") ⟨0, 0⟩ [kindA, kindB]).map Token.type).getLastD "" ∧
      (((Token.mk "B" ⟨⟨0, 0⟩, ⟨0, 1⟩⟩ "a"
          (some (Token.mk "A" ⟨⟨0, 0⟩, ⟨0, 1⟩⟩ "a" none))).chainList.getLastD
            (Token.mk "B" ⟨⟨0, 0⟩, ⟨0, 1⟩⟩ "a"
              (some (Token.mk "A" ⟨⟨0, 0⟩, ⟨0, 1⟩⟩ "a" none)))).alternative = none)) :=
  ⟨rfl, by decide,
   parse_token_tie_break
     (show parse_token (Source.ofString "ab") ⟨0, 0⟩ [kindA, kindB]
        = .ok (Token.mk "B" ⟨⟨0, 0⟩, ⟨0, 1⟩⟩ "a"
                (some (Token.mk "A" ⟨⟨0, 0⟩, ⟨0, 1⟩⟩ "a" none)), ⟨0, 1⟩) from rfl)
     (by decide)⟩

theorem kindA_wf : kindA.WF := by
  intro s n h
  dsimp [kindA] at h
  split at h
  · exact absurd h (by simp)
  · rename_i hlen
    injection h with h
    omega

theorem kindB_wf : kindB.WF := by
  intro s n h
  dsimp [kindB] at h
  split at h
  · exact absurd h (by simp)
  · rename_i hlen
    injection h with h
    omega

/-- C2: provided every matching rule reports at most the remainder length
(true of every regex) and the position lies on a real row, no applicable
kind matches a strictly longer prefix of the line remainder than the
number of positions spanned by the returned token's range. -/
theorem parse_token_longest_match {src : Source} {pos : Cursor} {tts : List TokenType}
    {t : Token} {p' : Cursor}
    (hw : ∀ tt ∈ tts, tt.WF) (hrow : pos.row < src.rows)
    (h : parse_token src pos tts = .ok (t, p')) :
    ∀ tt ∈ tts, ∀ n, tt.pat (src.remainder pos) = some n → n ≤ src.len t.rng := by
  obtain ⟨m, ms, hkeep, hne, rfl, _⟩ := parse_token_ok h
  obtain ⟨u, hu, _, hurng, _⟩ := chainAlternatives_mem ms m
  have hukeep : u ∈ keepMaxLen (parseMatches src pos tts) := hkeep ▸ hu
  have humax : u.len = maxLen (parseMatches src pos tts) := keepMaxLen_mem_len hne hukeep
  obtain ⟨ttu, httu, nu, hpatu, rfl⟩ := parseMatches_mem (keepMaxLen_subset hukeep)
  have hnu : nu ≤ (src.remainder pos).length := hw ttu httu _ _ hpatu
  obtain ⟨hulen, hsrclen, _⟩ := candidate_shape ttu.name hrow hnu
  intro tt htt n hpat
  have hc : Token.make src tt.name ⟨pos, src.nextN pos n⟩ ∈ parseMatches src pos tts :=
    parseMatches_of_pat htt hpat
  have hn : n ≤ (src.remainder pos).length := hw tt htt _ _ hpat
  obtain ⟨hclen, _, _⟩ := candidate_shape tt.name hrow hn
  have hmax := maxLen_ge hc
  rw [hclen] at hmax
  rw [hurng, hsrclen]
  rw [hulen] at humax
  omega

/-- C2 witness: with the one-character demonstration kinds, no applicable
kind beats the returned token's one-position range. -/
theorem parse_token_longest_match_witness :
    kindA.pat ((Source.ofString "ab").remainder ⟨0, 0⟩) = some 1 ∧
    (0 : Nat) < (Source.ofString "ab").rows ∧
    1 ≤ (Source.ofString "ab").len
      (Token.mk "B" ⟨⟨0, 0⟩, ⟨0, 1⟩⟩ "a"
        (some (Token.mk "A" ⟨⟨0, 0⟩, ⟨0, 1⟩⟩ "a" none))).rng :=
  ⟨rfl, by decide,
   parse_token_longest_match
     (by
       intro tt htt
       rcases List.mem_cons.mp htt with rfl | htt
       · exact kindA_wf
       · rcases List.mem_cons.mp htt with rfl | htt
         · exact kindB_wf
         · simp at htt)
     (by decide)
     (show parse_token (Source.ofString "ab") ⟨0, 0⟩ [kindA, kindB]
        = .ok (Token.mk "B" ⟨⟨0, 0⟩, ⟨0, 1⟩⟩ "a"
                (some (Token.mk "A" ⟨⟨0, 0⟩, ⟨0, 1⟩⟩ "a" none)), ⟨0, 1⟩) from rfl)
     kindA (List.mem_cons_self _ _) 1 rfl⟩

/-! ### The diagnostic renderer claims -/

theorem indexOf_range' :
    ∀ (n s r : Nat), s ≤ r → r < s + n → (List.range' s n).indexOf r = r - s := by
  intro n
  induction n with
  | zero => intro s r h1 h2; omega
  | succ n ih =>
    intro s r h1 h2
    rw [List.range'_succ, List.indexOf_cons]
    by_cases hr : s = r
    · subst hr
      simp
    · have hbe : (s == r) = false := by simp [hr]
      rw [hbe]
      simp only [cond_false]
      rw [ih (s + 1) r (by omega) (by omega)]
      omega

theorem getElem?_insertIdx_self {α : Type} (l : List α) (x : α) (n : Nat)
    (hn : n ≤ l.length) : (l.insertIdx n x)[n]? = some x := by
  rw [List.getElem?_eq_getElem (by rw [List.length_insertIdx n l hn]; omega)]
  rw [List.getElem_insertIdx_self l x n hn]

theorem getElem?_insertIdx_lt {α : Type} (l : List α) (x : α) (n k : Nat)
    (hn : n ≤ l.length) (hkn : k < n) (hk : k < l.length) :
    (l.insertIdx n x)[k]? = l[k]? := by
  rw [List.getElem?_eq_getElem (by rw [List.length_insertIdx n l hn]; omega)]
  rw [List.getElem_insertIdx_of_lt l x n k hkn hk]
  rw [List.getElem?_eq_getElem hk]

theorem spacesStr_append (a b : Nat) :
    spacesStr a ++ spacesStr b = spacesStr (a + b) := by
  show String.mk (List.replicate a ' ') ++ String.mk (List.replicate b ' ')
    = String.mk (List.replicate (a + b) ' ')
  rw [List.replicate_add]
  rfl

theorem caretLine_eq (w col : Nat) :
    "  " ++ spacesStr w ++ " " ++ spacesStr col ++ "^"
      = spacesStr (2 + w + 1 + col) ++ "^" := by
  rw [show ("  " : String) = spacesStr 2 from rfl,
    show (" " : String) = spacesStr 1 from rfl,
    spacesStr_append, spacesStr_append, spacesStr_append]

theorem rowsToShow_mem_iff (src : Source) (pos : Cursor) (r : Nat) :
    r ∈ rowsToShow src pos ↔ pos.row - 3 ≤ r ∧ r < src.rows ∧ r < pos.row + 3 := by
  unfold rowsToShow
  rw [List.mem_range'_1]
  omega

/-- C7, amended: for every valid failure position the renderer shows the
rows in the window `[pos.row - 3, pos.row + 3)` clamped to the buffer (so
up to three rows of context before and up to two after the failing row),
each shown row rendered with its right-aligned line number; the failing
row sits at its window index, and the very next output line is the caret
line: spaces across the margin and up to the failing column, then `^`. -/
theorem errorRows_spec {src : Source} {pos : Cursor} (hrow : pos.row < src.rows) :
    (∀ r : Nat, r ∈ rowsToShow src pos ↔ pos.row - 3 ≤ r ∧ r < src.rows ∧ r < pos.row + 3) ∧
    (errorRows src pos)[(rowsToShow src pos).indexOf pos.row]?
      = some ("  " ++ padLeftStr (toString (pos.row + 1)) (lineNumWidth src pos) ++ " "
          ++ src.line pos.row) ∧
    (errorRows src pos)[(rowsToShow src pos).indexOf pos.row + 1]?
      = some (spacesStr (2 + lineNumWidth src pos + 1 + pos.col) ++ "^") ∧
    (∀ r ∈ rowsToShow src pos,
      ("  " ++ padLeftStr (toString (r + 1)) (lineNumWidth src pos) ++ " " ++ src.line r)
        ∈ errorRows src pos) := by
  have hlen : (rowsToShow src pos).length
      = min src.rows (pos.row + 3) - (pos.row - 3) := List.length_range' _ _ _
  have hidx : (rowsToShow src pos).indexOf pos.row = pos.row - (pos.row - 3) := by
    unfold rowsToShow
    exact indexOf_range' _ _ _ (by omega) (by omega)
  have hidxlt : (rowsToShow src pos).indexOf pos.row < (rowsToShow src pos).length := by
    rw [hidx, hlen]
    omega
  have hval : (rowsToShow src pos)[(rowsToShow src pos).indexOf pos.row]?
      = some pos.row := by
    rw [List.getElem?_eq_getElem hidxlt]
    congr 1
    show (List.range' (pos.row - 3) (min src.rows (pos.row + 3) - (pos.row - 3)))[_] = pos.row
    rw [List.getElem_range', hidx]
    omega
  refine ⟨fun r => rowsToShow_mem_iff src pos r, ?_, ?_, ?_⟩
  · show (((rowsToShow src pos).map fun row =>
        "  " ++ padLeftStr (toString (row + 1)) (lineNumWidth src pos) ++ " "
          ++ src.line row).insertIdx ((rowsToShow src pos).indexOf pos.row + 1)
        ("  " ++ spacesStr (lineNumWidth src pos) ++ " " ++ spacesStr pos.col ++ "^"))[
          (rowsToShow src pos).indexOf pos.row]? = _
    rw [getElem?_insertIdx_lt _ _ _ _ (by rw [List.length_map]; omega)
      (Nat.lt_succ_self _) (by rw [List.length_map]; omega)]
    rw [List.getElem?_map, hval]
    rfl
  · show (((rowsToShow src pos).map fun row =>
        "  " ++ padLeftStr (toString (row + 1)) (lineNumWidth src pos) ++ " "
          ++ src.line row).insertIdx ((rowsToShow src pos).indexOf pos.row + 1)
        ("  " ++ spacesStr (lineNumWidth src pos) ++ " " ++ spacesStr pos.col ++ "^"))[
          (rowsToShow src pos).indexOf pos.row + 1]? = _
    rw [getElem?_insertIdx_self _ _ _ (by rw [List.length_map]; omega)]
    rw [caretLine_eq]
  · intro r hr
    show _ ∈ ((rowsToShow src pos).map fun row =>
        "  " ++ padLeftStr (toString (row + 1)) (lineNumWidth src pos) ++ " "
          ++ src.line row).insertIdx ((rowsToShow src pos).indexOf pos.row + 1)
        ("  " ++ spacesStr (lineNumWidth src pos) ++ " " ++ spacesStr pos.col ++ "^")
    rw [List.mem_insertIdx (by rw [List.length_map]; omega)]
    exact Or.inr (List.mem_map_of_mem _ hr)

/-- C7 witness: a concrete render; the failing row is row 4 of 8, so three
rows before and two after are shown, with the caret right under column 2. -/
theorem errorRows_spec_witness :
    (⟨4, 2⟩ : Cursor).row < (Source.ofString "a\nb\nc\nd\ne\nf\ng\nh").rows ∧
    ((3 : Nat) ∈ rowsToShow (Source.ofString "a\nb\nc\nd\ne\nf\ng\nh") ⟨4, 2⟩ ↔
      (⟨4, 2⟩ : Cursor).row - 3 ≤ 3 ∧ 3 < (Source.ofString "a\nb\nc\nd\ne\nf\ng\nh").rows ∧
        3 < (⟨4, 2⟩ : Cursor).row + 3) ∧
    (errorRows (Source.ofString "a\nb\nc\nd\ne\nf\ng\nh") ⟨4, 2⟩)[
        (rowsToShow (Source.ofString "a\nb\nc\nd\ne\nf\ng\nh") ⟨4, 2⟩).indexOf 4 + 1]?
      = some (spacesStr (2 + lineNumWidth (Source.ofString "a\nb\nc\nd\ne\nf\ng\nh") ⟨4, 2⟩
          + 1 + 2) ++ "^") :=
  ⟨by decide, ((errorRows_spec (by decide)).1 3),
    (@errorRows_spec (Source.ofString "a\nb\nc\nd\ne\nf\ng\nh") ⟨4, 2⟩ (by decide)).2.2.1⟩

/-- C7 counterexample: on a five-row source failing at row 0 there are four
rows below the failing row, yet the renderer's window shows only rows 0, 1
and 2 — not row 3, which a window of three rows of context after the
failing row (clamped only by the buffer bounds) would include. -/
theorem errorRows_counterexample :
    (Source.ofString "l1\nl2\nl3\nl4\nl5").rows = 5 ∧
    rowsToShow (Source.ofString "l1\nl2\nl3\nl4\nl5") ⟨0, 1⟩ = [0, 1, 2] ∧
    rowsToShow (Source.ofString "l1\nl2\nl3\nl4\nl5") ⟨0, 1⟩ ≠ [0, 1, 2, 3] := by
  refine ⟨rfl, rfl, ?_⟩
  decide
